import Mathlib

/-!
# fsatrace: report builder and argument resolver

A shallow embedding of `src/fsatrace.c`.

Memory is modelled as lists of bytes. A `char *` is the list of bytes from the
pointed-to address to the end of its region; a C string ends at its first NUL
byte, and a region that ends without a NUL reads as if a NUL followed it.
-/

namespace Fsatrace

/-- A C `char`, as an unsigned byte. -/
abbrev Byte := Fin 256

/-- The newline character. -/
abbrev NL : Byte := 10

/-! ## libc string primitives used by `fsatrace.c` -/

/-- C `strlen(s)`: the number of bytes before the terminating NUL. -/
def strlen : List Byte → Nat
  | [] => 0
  | b :: rest => if b = 0 then 0 else strlen rest + 1

/-- C `strchr(s, c)`: the offset `end - s` of the first `c` at or before the
terminating NUL, `none` for a null result. -/
def strchr : List Byte → Byte → Option Nat
  | [], c => if c = 0 then some 0 else none
  | b :: rest, c =>
    if b = c then some 0
    else if b = 0 then none
    else (strchr rest c).map (· + 1)

/-- C `strcpy(d, s)`: the bytes stored at `d`, the string and its NUL. -/
def strcpy : List Byte → List Byte
  | [] => [0]
  | b :: rest => if b = 0 then [0] else b :: strcpy rest

/-- C `memcpy(d, s, n)`: the `n` bytes stored at `d`. -/
def memcpy (s : List Byte) (n : Nat) : List Byte := s.take n

/-- C `strncmp(a, b, n)`: zero when the first `n` bytes agree (or both strings
end together before that), otherwise the difference of the first bytes that
differ. -/
def strncmp : List Byte → List Byte → Nat → Int
  | _, _, 0 => 0
  | [], [], _ + 1 => 0
  | [], y :: _, _ + 1 => - (y.val : Int)
  | x :: _, [], _ + 1 => (x.val : Int)
  | x :: xs, y :: ys, n + 1 =>
    if x ≠ y then (x.val : Int) - (y.val : Int)
    else if x = 0 then 0
    else strncmp xs ys n

/-- C `strcmp(a, b)`. -/
def strcmp : List Byte → List Byte → Int
  | [], [] => 0
  | [], y :: _ => - (y.val : Int)
  | x :: _, [] => (x.val : Int)
  | x :: xs, y :: ys =>
    if x ≠ y then (x.val : Int) - (y.val : Int)
    else if x = 0 then 0
    else strcmp xs ys

/-! ## `uniq` (fsatrace.c, lines 85-99) -/

/-- The recursion of `uniq`. `d` holds the bytes stored so far at the
destination (the pointer `d` of the C code is the end of this list), `tot` is
`*tot`, `s` is the source from the current position on, `last` points at the
last kept line and `lastsz` is its length. The first argument bounds the
recursion depth; `none` means the bound was reached. -/
def uniqAux : Nat → List Byte → Nat → List Byte → List Byte → Nat → Option (List Byte × Nat)
  | 0, _, _, _, _, _ => none
  | fuel + 1, d, tot, s, last, lastsz =>
    match strchr s NL with
    | none => some (d ++ strcpy s, tot + strlen s)
    | some sz =>
      if sz ≠ lastsz ∨ strncmp s last lastsz ≠ 0 then
        uniqAux fuel (d ++ memcpy s (sz + 1)) (tot + (sz + 1)) (s.drop (sz + 1)) s sz
      else
        uniqAux fuel d tot (s.drop (sz + 1)) last lastsz

/-- The call `uniq(d, tot, s, last, lastsz)`: the bytes stored from `d` on and
the final `*tot`. Every recursive call advances `s` past a newline, so a depth
of `s.length + 1` is never reached. -/
def uniq (d : List Byte) (tot : Nat) (s last : List Byte) (lastsz : Nat) :
    Option (List Byte × Nat) :=
  uniqAux (s.length + 1) d tot s last lastsz

/-! ## `lines` (fsatrace.c, lines 110-123) -/

/-- The result of `lines`: the buffer after the in-place writes, the entries
`args[0 .. nargs)` stored in the pointer table (each a pointer into the buffer,
kept as its offset from the start of the buffer), and the returned count. -/
structure LinesResult where
  buf : List Byte
  args : List Nat
  nargs : Nat
deriving DecidableEq

/-- The `while` loop of `lines`. The cursor `s` stands between `done` (the bytes
before it, with the writes `s[-1] = 0` applied) and `todo` (the bytes from it
on), so `s - buf = done.length`. The entries stored so far are `args[0 .. nargs)`,
hence the store `args[nargs++] = start` puts `start` right after them. -/
def linesLoop : List Byte → List Byte → Nat → List Nat → Nat → LinesResult
  | [], done, _, args, nargs => ⟨done, args, nargs⟩
  | c :: todo, done, start, args, nargs =>
    if c = 0 then ⟨done ++ c :: todo, args, nargs⟩
    else if c = NL then
      linesLoop todo (done ++ [0]) (done.length + 1) (args ++ [start]) (nargs + 1)
    else
      linesLoop todo (done ++ [c]) start args nargs

/-- The call `lines(s, args)`. -/
def lines (s : List Byte) : LinesResult :=
  linesLoop s [] 0 [] 0

/-- The C string that pointer `p` (an offset into `buf`) points at: the bytes
from there up to the first NUL. -/
def stringAt (buf : List Byte) (p : Nat) : List Byte :=
  (buf.drop p).takeWhile (· ≠ 0)

/-! ## `slurp`, `dump` and `main` -/

/-- The constant `MAXARGS` of `main`. -/
def MAXARGS : Nat := 0x8000

/-- The value of `EXIT_FAILURE`. -/
def EXIT_FAILURE : Int := 1

/-- Number of values of `size_t` (64-bit). -/
def SIZE_MAX1 : Nat := 2 ^ 64

/-- The value of `sizeof(char *)` (64-bit). -/
def PTRSZ : Nat := 8

/-- The string `"--"`. -/
def dedupMark : List Byte := [45, 45]

/-- The string `"---"`. -/
def rawMark : List Byte := [45, 45, 45]

/-- The string `"-"`. -/
def stdoutMark : List Byte := [45]

/-- Modelled from the spec: `proc.h` is not among the sources; the results of
`procRun` are the spawn failure, the exec failure, the wait failure, and
completion (every other return value, the `default` label of the `switch`). -/
inductive ProcResult where
  | ERR_PROC_OK
  | ERR_PROC_FORK
  | ERR_PROC_EXEC
  | ERR_PROC_WAIT
deriving DecidableEq

/-- What the operating system and the collaborators outside `fsatrace.c`
(`shm.c`, `proc.c`, the traced child) answer during one run. -/
structure Env where
  /-- The constant `LOGSZ` of `fsatrace.h`. -/
  LOGSZ : Nat
  /-- The return value of `shmInit`. -/
  shmInitErr : Int
  /-- The bytes of the indirection file, `none` when it cannot be opened. -/
  argFile : Option (List Byte)
  /-- The return value of `procRun`. -/
  procResult : ProcResult
  /-- The value `procRun` stores through `&rc`, `none` when it stores nothing. -/
  procRc : Option Int
  /-- The bytes of `shm.buf` once `procRun` has returned. -/
  shmBuf : List Byte
  /-- The return value of `open` in `dump`. -/
  openFd : Int
  /-- The return value of `write` in `dump`. -/
  writeRes : Int
  /-- The return value of `shmTerm`. -/
  shmTermErr : Int

/-- The observable steps of a run, in order. -/
inductive Event where
  | fatalExit (msg : String)
  | errorMsg (msg : String)
  | shmInit (out : List Byte) (size : Nat)
  | putenv (out : List Byte)
  | procRun (nargs : Nat) (args : List (List Byte))
  | dumpargs (nargs : Nat)
  | openOut (path : List Byte)
  | write (fd : Int) (p : List Byte) (sz : Nat)
  | close (fd : Int)
  | nonterminating
  | shmTerm
deriving DecidableEq

/-- The call `slurp(p, sz, path)`: the contents of `p` afterwards. `read` is
taken to deliver the whole file, up to `sz` bytes. -/
def slurp (p : List Byte) (sz : Nat) (file : Option (List Byte)) : List Byte :=
  match file with
  | none => p
  | some content =>
    let got := content.take sz
    let r := got.length
    let p1 := got ++ p.drop r
    if r ≠ 0 then p1.set r 0 else p1

/-- Lines 71-74 of `dump`: the descriptor written to, what `open` returned
unless the path is `"-"`, which stands for descriptor 1. -/
def outFd (env : Env) (path : List Byte) : Int :=
  if strcmp path stdoutMark ≠ 0 then env.openFd else 1

/-- The call `dump(path, p, sz)`: `p` is the memory from the pointer on, so
the byte sequence handed to `write` is `p.take sz`. The comparison `r != sz`
is done in `size_t`. -/
def dump (env : Env) (path p : List Byte) (sz : Nat) : List Event :=
  let fd : Int := outFd env path
  let r : Int := if fd ≥ 0 then env.writeRes else 0
  (if strcmp path stdoutMark ≠ 0 then [Event.openOut path] else [])
    ++ (if fd ≥ 0 then [Event.write fd p sz]
        else [Event.errorMsg "Unable to open output file"])
    ++ (if r % (SIZE_MAX1 : Int) ≠ (sz : Int) then [Event.errorMsg "Short write"] else [])
    ++ (if fd ≠ 1 then [Event.close fd] else [])

/-- The value `*(uint32_t *) shm.buf` (little-endian). -/
def header (shmBuf : List Byte) : Nat :=
  (shmBuf.getD 0 0).val + 2 ^ 8 * (shmBuf.getD 1 0).val
    + 2 ^ 16 * (shmBuf.getD 2 0).val + 2 ^ 24 * (shmBuf.getD 3 0).val

/-- The test of line 137 that leads to the usage `fatal`. -/
def badUsage (argv : List (List Byte)) : Prop :=
  argv.length < 4 ∨
    (strcmp (argv.getD 2 []) dedupMark ≠ 0 ∧ strcmp (argv.getD 2 []) rawMark ≠ 0)

instance decidableBadUsage (argv : List (List Byte)) : Decidable (badUsage argv) := by
  unfold badUsage; infer_instance

/-- The value of `bsz` in `main`, in `size_t` arithmetic. -/
def bufSize (LOGSZ : Nat) : Nat :=
  (LOGSZ + SIZE_MAX1 - (MAXARGS * PTRSZ) % SIZE_MAX1) % SIZE_MAX1

/-- Lines 145-151 with an indirection file: `slurp` into the zero-initialised
static `buf`, then `lines`. The pointer table is kept apart from the text. -/
def argFileLines (LOGSZ : Nat) (file : Option (List Byte)) : LinesResult :=
  lines (slurp (List.replicate LOGSZ 0) (bufSize LOGSZ) file)

/-- Lines 135-151: the count `nargs` and the strings of `args`. -/
def resolveArgs (env : Env) (argv : List (List Byte)) : Nat × List (List Byte) :=
  if (argv.getD 3 []).head? = some 64 then
    let r := argFileLines env.LOGSZ env.argFile
    (r.nargs, r.args.map (stringAt r.buf))
  else
    (argv.length - 3, argv.drop 3)

/-- The `switch` of lines 152-175, given `nargs` and the `rc` left by `procRun`. -/
def report (env : Env) (argv : List (List Byte)) (nargs : Nat) (rc : Int) : List Event :=
  match env.procResult with
  | .ERR_PROC_FORK => [Event.dumpargs nargs, Event.errorMsg "forking process"]
  | .ERR_PROC_EXEC => [Event.dumpargs nargs, Event.errorMsg "executing command"]
  | .ERR_PROC_WAIT => [Event.dumpargs nargs, Event.errorMsg "waiting for command completion"]
  | .ERR_PROC_OK =>
    if rc ≠ 0 then
      [Event.dumpargs nargs, Event.errorMsg "command failed"]
    else if strcmp (argv.getD 2 []) rawMark ≠ 0 then
      match uniq [] 0 (env.shmBuf.drop 4) [0] 0 with
      | some (buf, sz) => dump env (argv.getD 1 []) buf sz
      | none => [Event.nonterminating]
    else
      dump env (argv.getD 1 []) (env.shmBuf.drop 4) (header env.shmBuf)

/-- The function `main`: the steps taken and the exit code of the process.
`fatal` ends the run at once with `EXIT_FAILURE`. -/
def main (env : Env) (argv : List (List Byte)) : List Event × Int :=
  if badUsage argv then
    ([Event.fatalExit "usage"], EXIT_FAILURE)
  else
    let out := argv.getD 1 []
    if env.shmInitErr ≠ 0 then
      ([Event.shmInit out env.LOGSZ, Event.fatalExit "allocating shared memory"], EXIT_FAILURE)
    else
      let na := resolveArgs env argv
      let rc := env.procRc.getD EXIT_FAILURE
      ([Event.shmInit out env.LOGSZ, Event.putenv out, Event.procRun na.1 na.2]
        ++ report env argv na.1 rc
        ++ [Event.shmTerm]
        ++ (if env.shmTermErr ≠ 0 then [Event.errorMsg "freeing shared memory"] else []),
       rc)

/-! ## Reference definitions, following the specification -/

/-- The text made of the given lines, each followed by its newline. -/
def unlines : List (List Byte) → List Byte
  | [] => []
  | l :: ls => l ++ NL :: unlines ls

/-- The dedup pass as the specification words it: go through the lines in
order with a "last emitted line"; a line that differs from it is emitted and
becomes the last emitted line, a line equal to it is skipped. -/
def dedupSpec (last : List Byte) : List (List Byte) → List (List Byte)
  | [] => []
  | l :: ls => if l ≠ last then l :: dedupSpec l ls else dedupSpec last ls

/-- A line body: no newline and no NUL inside. -/
def Plain (l : List Byte) : Prop := NL ∉ l ∧ (0 : Byte) ∉ l

instance decidablePlain (l : List Byte) : Decidable (Plain l) := by
  unfold Plain; infer_instance

/-- The lines, each followed by a NUL: the text after `lines` has replaced the
newlines. -/
def nulTerminated : List (List Byte) → List Byte
  | [] => []
  | l :: ls => l ++ 0 :: nulTerminated ls

/-- The offsets at which the lines start when the first starts at `base`. -/
def lineStarts (base : Nat) : List (List Byte) → List Nat
  | [] => []
  | l :: ls => base :: lineStarts (base + l.length + 1) ls

/-- The events of `dump`: opening, writing and closing the destination. -/
def Event.isDumpStep : Event → Bool
  | .openOut _ => true
  | .write _ _ _ => true
  | .close _ => true
  | _ => false

/-- The byte sequence an event hands to the destination: `write(fd, p, sz)`
hands the first `sz` bytes at `p`. -/
def Event.handed : Event → Option (List Byte)
  | .write _ p sz => some (p.take sz)
  | _ => none

/-- The sizes passed to `write`. -/
def Event.writeSize : Event → Option Nat
  | .write _ _ sz => some sz
  | _ => none

/-- A run in raw mode: `fsatrace o --- c`, the child exits with 0 and leaves a
header of 3 and the body `"a\nb"` in the channel. -/
def rawRun : Env × List (List Byte) :=
  (⟨4194304, 0, none, ProcResult.ERR_PROC_OK, some 0, [3, 0, 0, 0, 97, 10, 98, 0, 0], 3, 3, 0⟩,
   [[102], [111], rawMark, [99]])

/-- A run in dedup mode in which the child exits with 2. -/
def failedRun : Env × List (List Byte) :=
  (⟨4194304, 0, none, ProcResult.ERR_PROC_OK, some 2, [2, 0, 0, 0, 97, 10, 0], 3, 2, 0⟩,
   [[102], [111], dedupMark, [99]])

/-! ## Facts about the string primitives -/

theorem strlen_append_end (t r : List Byte) (ht : (0 : Byte) ∉ t) (hr : strlen r = 0) :
    strlen (t ++ r) = t.length := by
  induction t with
  | nil => simpa using hr
  | cons b t ih =>
    simp only [List.mem_cons, not_or] at ht
    have hb : b ≠ 0 := fun h => ht.1 h.symm
    simp [strlen, hb, ih ht.2]

theorem strcpy_append_end (t r : List Byte) (ht : (0 : Byte) ∉ t) (hr : strlen r = 0) :
    strcpy (t ++ r) = t ++ [0] := by
  induction t with
  | nil =>
    cases r with
    | nil => rfl
    | cons b r =>
      by_cases hb : b = 0
      · simp [strcpy, hb]
      · simp [strlen, hb] at hr
  | cons b t ih =>
    simp only [List.mem_cons, not_or] at ht
    have hb : b ≠ 0 := fun h => ht.1 h.symm
    simp [strcpy, hb, ih ht.2]

theorem strchr_line (l rest : List Byte) (hl : Plain l) :
    strchr (l ++ NL :: rest) NL = some l.length := by
  induction l with
  | nil => simp [strchr]
  | cons b l ih =>
    obtain ⟨h1, h2⟩ := hl
    simp only [List.mem_cons, not_or] at h1 h2
    have hb : b ≠ NL := fun h => h1.1 h.symm
    have hb0 : b ≠ 0 := fun h => h2.1 h.symm
    simp [strchr, hb, hb0, ih ⟨h1.2, h2.2⟩]

theorem strchr_end (t r : List Byte) (ht : Plain t) (hr : strlen r = 0) :
    strchr (t ++ r) NL = none := by
  induction t with
  | nil =>
    cases r with
    | nil => simp [strchr]; decide
    | cons b r =>
      by_cases hb : b = 0
      · subst hb; simp [strchr]; decide
      · simp [strlen, hb] at hr
  | cons b t ih =>
    obtain ⟨h1, h2⟩ := ht
    simp only [List.mem_cons, not_or] at h1 h2
    have hb : b ≠ NL := fun h => h1.1 h.symm
    have hb0 : b ≠ 0 := fun h => h2.1 h.symm
    simp [strchr, hb, hb0, ih ⟨h1.2, h2.2⟩]

theorem strncmp_self (a x y : List Byte) : strncmp (a ++ x) (a ++ y) a.length = 0 := by
  induction a with
  | nil => simp [strncmp]
  | cons b a ih =>
    by_cases hb : b = 0
    · simp [strncmp, hb]
    · simp [strncmp, hb, ih]

theorem strncmp_ne (a b x y : List Byte) (hlen : a.length = b.length) (hne : a ≠ b)
    (ha : (0 : Byte) ∉ a) : strncmp (a ++ x) (b ++ y) a.length ≠ 0 := by
  induction a generalizing b with
  | nil =>
    cases b with
    | nil => exact absurd rfl hne
    | cons c b => simp at hlen
  | cons c a ih =>
    cases b with
    | nil => simp at hlen
    | cons e b =>
      simp only [List.mem_cons, not_or] at ha
      have hc : c ≠ 0 := fun h => ha.1 h.symm
      by_cases hce : c = e
      · subst hce
        have hab : a ≠ b := fun h => hne (by rw [h])
        have := ih b (by simpa using hlen) hab ha.2
        simpa [strncmp, hc] using this
      · have hv : (c.val : Int) - (e.val : Int) ≠ 0 := by
          intro h
          apply hce
          apply Fin.ext
          omega
        simpa [strncmp, hce] using hv

/-! ## Facts about the reference definitions -/

theorem unlines_append (xs ys : List (List Byte)) :
    unlines (xs ++ ys) = unlines xs ++ unlines ys := by
  induction xs with
  | nil => rfl
  | cons l xs ih => simp [unlines, ih]

theorem dedupSpec_idem (last : List Byte) (ls : List (List Byte)) :
    dedupSpec last (dedupSpec last ls) = dedupSpec last ls := by
  induction ls generalizing last with
  | nil => rfl
  | cons l ls ih =>
    by_cases h : l = last
    · subst h; simp [dedupSpec, ih]
    · simp [dedupSpec, h, ih]

theorem dedupSpec_mem (last : List Byte) (ls : List (List Byte)) :
    ∀ l ∈ dedupSpec last ls, l ∈ ls := by
  induction ls generalizing last with
  | nil => intro l h; simp [dedupSpec] at h
  | cons a ls ih =>
    intro l h
    by_cases ha : a = last
    · subst ha
      simp only [dedupSpec, ne_eq, not_true_eq_false, if_false] at h
      exact List.mem_cons_of_mem _ (ih _ l h)
    · simp only [dedupSpec, ne_eq, ha, not_false_eq_true, if_true, List.mem_cons] at h
      rcases h with h | h
      · subst h; exact List.mem_cons_self _ _
      · exact List.mem_cons_of_mem _ (ih _ l h)

theorem unlines_dedupSpec_length_le (last : List Byte) (ls : List (List Byte)) :
    (unlines (dedupSpec last ls)).length ≤ (unlines ls).length := by
  induction ls generalizing last with
  | nil => simp [dedupSpec]
  | cons a ls ih =>
    by_cases ha : a = last
    · subst ha
      have := ih a
      simp only [dedupSpec, ne_eq, not_true_eq_false, if_false, unlines, List.length_append,
        List.length_cons]
      omega
    · have := ih a
      simp only [dedupSpec, ne_eq, ha, not_false_eq_true, if_true, unlines, List.length_append,
        List.length_cons]
      omega

theorem unlines_no_nul (ls : List (List Byte)) (h : ∀ l ∈ ls, Plain l) :
    (0 : Byte) ∉ unlines ls := by
  induction ls with
  | nil => simp [unlines]
  | cons a ls ih =>
    have ha := (h a (List.mem_cons_self _ _)).2
    have := ih (fun l hl => h l (List.mem_cons_of_mem _ hl))
    simp only [unlines, List.mem_append, List.mem_cons, not_or]
    exact ⟨ha, by decide, this⟩

/-! ## The dedup pass against its reference -/

/-- The recursion of `uniq` on a text of newline-terminated plain lines `ls`
followed by an unterminated plain rest `t`: the kept lines are those the
reference keeps, and the rest is copied as it is. -/
theorem uniqAux_spec (ls : List (List Byte)) :
    ∀ (fuel : Nat) (d : List Byte) (tot : Nat) (t r last lrest : List Byte),
      (∀ l ∈ ls, Plain l) → Plain t → strlen r = 0 → (0 : Byte) ∉ last → ls.length < fuel →
      uniqAux fuel d tot (unlines ls ++ (t ++ r)) (last ++ lrest) last.length =
        some (d ++ (unlines (dedupSpec last ls) ++ (t ++ [0])),
          tot + ((unlines (dedupSpec last ls)).length + t.length)) := by
  induction ls with
  | nil =>
    intro fuel d tot t r last lrest _ ht hr _ hf
    obtain ⟨f, rfl⟩ : ∃ f, fuel = f + 1 := ⟨fuel - 1, by simp at hf; omega⟩
    simp [uniqAux, unlines, dedupSpec, strchr_end t r ht hr, strcpy_append_end t r ht.2 hr,
      strlen_append_end t r ht.2 hr]
  | cons l ls ih =>
    intro fuel d tot t r last lrest hls ht hr hlast hf
    obtain ⟨f, rfl⟩ : ∃ f, fuel = f + 1 := ⟨fuel - 1, by simp at hf; omega⟩
    have hl : Plain l := hls l (List.mem_cons_self _ _)
    have hls' : ∀ x ∈ ls, Plain x := fun x hx => hls x (List.mem_cons_of_mem _ hx)
    have hf' : ls.length < f := by simp at hf; omega
    have hs : unlines (l :: ls) ++ (t ++ r) = l ++ NL :: (unlines ls ++ (t ++ r)) := by
      simp [unlines]
    have hdrop : (l ++ NL :: (unlines ls ++ (t ++ r))).drop (l.length + 1)
        = unlines ls ++ (t ++ r) := by
      rw [show l ++ NL :: (unlines ls ++ (t ++ r)) = (l ++ [NL]) ++ (unlines ls ++ (t ++ r)) by simp]
      rw [List.drop_left' (by simp)]
    have htake : memcpy (l ++ NL :: (unlines ls ++ (t ++ r))) (l.length + 1) = l ++ [NL] := by
      unfold memcpy
      rw [show l ++ NL :: (unlines ls ++ (t ++ r)) = (l ++ [NL]) ++ (unlines ls ++ (t ++ r)) by simp]
      rw [List.take_left' (by simp)]
    rw [hs]
    simp only [uniqAux, strchr_line l _ hl]
    by_cases heq : l = last
    · subst heq
      have hc : ¬ (l.length ≠ l.length ∨
          strncmp (l ++ NL :: (unlines ls ++ (t ++ r))) (l ++ lrest) l.length ≠ 0) := by
        simp [strncmp_self]
      rw [if_neg hc, hdrop, ih f d tot t r l lrest hls' ht hr hlast hf']
      simp [dedupSpec]
    · have hc : l.length ≠ last.length ∨
          strncmp (l ++ NL :: (unlines ls ++ (t ++ r))) (last ++ lrest) last.length ≠ 0 := by
        by_cases hlen : l.length = last.length
        · right
          rw [← hlen]
          exact strncmp_ne l last _ _ hlen heq hl.2
        · left; exact hlen
      rw [if_pos hc, hdrop, htake]
      have := ih f (d ++ (l ++ [NL])) (tot + (l.length + 1)) t r l
        (NL :: (unlines ls ++ (t ++ r))) hls' ht hr hl.2 hf'
      rw [this]
      simp [dedupSpec, heq, unlines]
      omega

/-- Every memory content splits into newline-terminated plain lines, an
unterminated plain rest, and what follows the end of the string. -/
theorem text_split (s : List Byte) :
    ∃ (ls : List (List Byte)) (t r : List Byte),
      s = unlines ls ++ (t ++ r) ∧ (∀ l ∈ ls, Plain l) ∧ Plain t ∧ strlen r = 0 ∧
      strlen s = (unlines ls).length + t.length := by
  induction s with
  | nil => exact ⟨[], [], [], by simp [unlines], by simp, by simp [Plain], rfl, by simp [unlines, strlen]⟩
  | cons b s ih =>
    obtain ⟨ls, t, r, hs, hls, ht, hr, hlen⟩ := ih
    by_cases hb0 : b = 0
    · exact ⟨[], [], b :: s, by simp [unlines], by simp, by simp [Plain], by simp [strlen, hb0],
        by simp [strlen, hb0, unlines]⟩
    · by_cases hbn : b = NL
      · refine ⟨[] :: ls, t, r, by simp [unlines, hs, hbn], ?_, ht, hr, ?_⟩
        · intro l hl
          rcases List.mem_cons.1 hl with h | h
          · subst h; simp [Plain]
          · exact hls l h
        · simp [strlen, hb0, hlen, unlines]; omega
      · cases ls with
        | nil =>
          refine ⟨[], b :: t, r, by simpa [unlines] using hs, by simp, ?_, hr, ?_⟩
          · refine ⟨?_, ?_⟩
            · simp only [List.mem_cons, not_or]; exact ⟨fun h => hbn h.symm, ht.1⟩
            · simp only [List.mem_cons, not_or]; exact ⟨fun h => hb0 h.symm, ht.2⟩
          · simp [strlen, hb0, hlen, unlines]
        | cons l ls =>
          refine ⟨(b :: l) :: ls, t, r, by simp [unlines, hs], ?_, ht, hr, ?_⟩
          · intro x hx
            rcases List.mem_cons.1 hx with h | h
            · subst h
              have hl := hls l (List.mem_cons_self _ _)
              refine ⟨?_, ?_⟩
              · simp only [List.mem_cons, not_or]; exact ⟨fun h => hbn h.symm, hl.1⟩
              · simp only [List.mem_cons, not_or]; exact ⟨fun h => hb0 h.symm, hl.2⟩
            · exact hls x (List.mem_cons_of_mem _ h)
          · simp [strlen, hb0, hlen, unlines]; omega

theorem length_le_unlines_length (ls : List (List Byte)) : ls.length ≤ (unlines ls).length := by
  induction ls with
  | nil => simp
  | cons l ls ih => simp [unlines]; omega

/-- The call of `main`, `uniq(buf, &sz, s, "", 0)`, on lines, a rest and a terminated end. -/
theorem uniq_spec (ls : List (List Byte)) (t r : List Byte)
    (hls : ∀ l ∈ ls, Plain l) (ht : Plain t) (hr : strlen r = 0) :
    uniq [] 0 (unlines ls ++ (t ++ r)) [0] 0 =
      some (unlines (dedupSpec [] ls) ++ (t ++ [0]),
        (unlines (dedupSpec [] ls)).length + t.length) := by
  have hf : ls.length < (unlines ls ++ (t ++ r)).length + 1 := by
    have := length_le_unlines_length ls
    simp only [List.length_append]
    omega
  have := uniqAux_spec ls _ [] 0 t r [] [0] hls ht hr (by simp) hf
  simpa [uniq] using this

/-- C1: on a body made of newline-terminated lines without NUL bytes,
`uniq(d, &tot, s, "", 0)` stores in `d` exactly the lines that differ from the
most recently kept line (the empty line before any is kept), in order and each
with its newline, so only adjacent duplicates go. -/
theorem uniq_keeps_lines_differing_from_last_kept (ls : List (List Byte)) (junk : List Byte)
    (hls : ∀ l ∈ ls, Plain l) :
    uniq [] 0 (unlines ls ++ 0 :: junk) [0] 0 =
      some (unlines (dedupSpec [] ls) ++ [0], (unlines (dedupSpec [] ls)).length) := by
  have := uniq_spec ls [] (0 :: junk) hls (by simp [Plain]) (by simp [strlen])
  simpa using this

theorem uniq_keeps_lines_differing_from_last_kept_witness :
    uniq [] 0 [97, 10, 97, 10, 98, 10, 97, 10, 0] [0] 0
        = some ([97, 10, 98, 10, 97, 10, 0], 6) ∧
      uniq [] 0 [114, 47, 97, 10, 114, 47, 97, 10, 119, 47, 98, 10, 0] [0] 0
        = some ([114, 47, 97, 10, 119, 47, 98, 10, 0], 8) :=
  ⟨uniq_keeps_lines_differing_from_last_kept [[97], [97], [98], [97]] [] (by decide),
   uniq_keeps_lines_differing_from_last_kept [[114, 47, 97], [114, 47, 97], [119, 47, 98]] []
     (by decide)⟩

/-- C2: the dedup pass is idempotent. For every memory content `s`, `uniq`
returns a text and a total, and `uniq` on that text (whatever follows it in
memory) returns the same text and the same total. -/
theorem uniq_idempotent (s : List Byte) :
    ∃ (out : List Byte) (tot : Nat), uniq [] 0 s [0] 0 = some (out, tot) ∧
      ∀ junk : List Byte, uniq [] 0 (out ++ junk) [0] 0 = some (out, tot) := by
  obtain ⟨ls, t, r, hs, hls, ht, hr, _⟩ := text_split s
  refine ⟨unlines (dedupSpec [] ls) ++ (t ++ [0]),
    (unlines (dedupSpec [] ls)).length + t.length, ?_, ?_⟩
  · rw [hs]; exact uniq_spec ls t r hls ht hr
  · intro junk
    have hls' : ∀ l ∈ dedupSpec [] ls, Plain l := fun l hl => hls l (dedupSpec_mem [] ls l hl)
    have := uniq_spec (dedupSpec [] ls) t (0 :: junk) hls' ht (by simp [strlen])
    rw [dedupSpec_idem] at this
    simpa using this

/-- C9 (as the claim states it, refuted): on the body `"a\na"` the final
unterminated line equals the last emitted line and is copied all the same; the
output is `"a\na"`, not `"a\n"`. -/
theorem uniq_copies_equal_final_line :
    uniq [] 0 [97, 10, 97, 0] [0] 0 = some ([97, 10, 97, 0], 3) ∧
      uniq [] 0 [97, 10, 97, 0] [0] 0 ≠ some ([97, 10, 0], 2) := by
  decide

/-- C9 (amended): the newline-terminated lines are deduplicated against the
last emitted line, and the final unterminated line is copied without a
terminator whether or not it equals the last emitted line. -/
theorem uniq_copies_final_unterminated_line (ls : List (List Byte)) (t junk : List Byte)
    (hls : ∀ l ∈ ls, Plain l) (ht : Plain t) :
    uniq [] 0 (unlines ls ++ (t ++ 0 :: junk)) [0] 0 =
      some (unlines (dedupSpec [] ls) ++ (t ++ [0]),
        (unlines (dedupSpec [] ls)).length + t.length) :=
  uniq_spec ls t (0 :: junk) hls ht (by simp [strlen])

theorem uniq_copies_final_unterminated_line_witness :
    uniq [] 0 [97, 10, 97, 10, 97, 0] [0] 0 = some ([97, 10, 97, 0], 3) :=
  uniq_copies_final_unterminated_line [[97], [97]] [97] [] (by decide) (by decide)

/-- C10: for every memory content `s`, `uniq(d, &tot, s, "", 0)` with `*tot = 0`
returns; it leaves in `d` a text without NUL followed by a NUL, the final
`*tot` is the length of that text, which is at most `strlen(s)`; an empty body
gives an empty text. -/
theorem uniq_output_within_source_length (s : List Byte) :
    ∃ text : List Byte, uniq [] 0 s [0] 0 = some (text ++ [0], text.length) ∧
      (0 : Byte) ∉ text ∧ text.length ≤ strlen s ∧ (strlen s = 0 → text = []) := by
  obtain ⟨ls, t, r, hs, hls, ht, hr, hlen⟩ := text_split s
  have hle := unlines_dedupSpec_length_le [] ls
  have hlen' : (unlines (dedupSpec [] ls) ++ t).length ≤ strlen s := by
    rw [hlen]; simp only [List.length_append]; omega
  refine ⟨unlines (dedupSpec [] ls) ++ t, ?_, ?_, hlen', ?_⟩
  · rw [hs, uniq_spec ls t r hls ht hr]; simp
  · have h1 := unlines_no_nul (dedupSpec [] ls) (fun l hl => hls l (dedupSpec_mem [] ls l hl))
    simp only [List.mem_append, not_or]
    exact ⟨h1, ht.2⟩
  · intro h0
    rw [h0] at hlen'
    exact List.length_eq_zero.1 (Nat.le_zero.1 hlen')

/-! ## The line splitter -/

theorem linesLoop_plain (l todo done : List Byte) (start : Nat) (args : List Nat) (nargs : Nat)
    (hl : Plain l) :
    linesLoop (l ++ todo) done start args nargs = linesLoop todo (done ++ l) start args nargs := by
  induction l generalizing done with
  | nil => simp
  | cons b l ih =>
    obtain ⟨h1, h2⟩ := hl
    simp only [List.mem_cons, not_or] at h1 h2
    have hb : b ≠ NL := fun h => h1.1 h.symm
    have hb0 : b ≠ 0 := fun h => h2.1 h.symm
    simp [linesLoop, hb, hb0, ih (done ++ [b]) ⟨h1.2, h2.2⟩]

theorem linesLoop_end (r done : List Byte) (start : Nat) (args : List Nat) (nargs : Nat)
    (hr : strlen r = 0) :
    linesLoop r done start args nargs = ⟨done ++ r, args, nargs⟩ := by
  cases r with
  | nil => simp [linesLoop]
  | cons b r =>
    by_cases hb : b = 0
    · simp [linesLoop, hb]
    · simp [strlen, hb] at hr

/-- The loop of `lines` on newline-terminated plain lines `ls`, an unterminated
plain rest `t` and a terminated end `r`, entered at the start of a line. -/
theorem linesLoop_spec (ls : List (List Byte)) :
    ∀ (t r done : List Byte) (args : List Nat) (nargs : Nat),
      (∀ l ∈ ls, Plain l) → Plain t → strlen r = 0 →
      linesLoop (unlines ls ++ (t ++ r)) done done.length args nargs =
        ⟨done ++ (nulTerminated ls ++ (t ++ r)), args ++ lineStarts done.length ls,
          nargs + ls.length⟩ := by
  induction ls with
  | nil =>
    intro t r done args nargs _ ht hr
    simp [unlines, nulTerminated, lineStarts, linesLoop_plain t r done _ args nargs ht,
      linesLoop_end r (done ++ t) _ args nargs hr]
  | cons l ls ih =>
    intro t r done args nargs hls ht hr
    have hl : Plain l := hls l (List.mem_cons_self _ _)
    have hls' : ∀ x ∈ ls, Plain x := fun x hx => hls x (List.mem_cons_of_mem _ hx)
    have hs : unlines (l :: ls) ++ (t ++ r) = l ++ (NL :: (unlines ls ++ (t ++ r))) := by
      simp [unlines]
    rw [hs, linesLoop_plain l _ done _ args nargs hl]
    have hnl : (NL : Byte) ≠ 0 := by decide
    simp only [linesLoop, hnl, if_false, if_true]
    have := ih t r (done ++ l ++ [0]) (args ++ [done.length]) (nargs + 1) hls' ht hr
    simp only [List.length_append, List.length_singleton] at this
    simp only [List.length_append]
    rw [this]
    simp [nulTerminated, lineStarts]
    omega

theorem stringAt_lineStarts (ls : List (List Byte)) :
    ∀ (pre rest : List Byte), (∀ l ∈ ls, Plain l) →
      (lineStarts pre.length ls).map (stringAt (pre ++ (nulTerminated ls ++ rest))) = ls := by
  induction ls with
  | nil => intro pre rest _; simp [lineStarts]
  | cons l ls ih =>
    intro pre rest hls
    have hl : Plain l := hls l (List.mem_cons_self _ _)
    have hls' : ∀ x ∈ ls, Plain x := fun x hx => hls x (List.mem_cons_of_mem _ hx)
    have hhead : stringAt (pre ++ (nulTerminated (l :: ls) ++ rest)) pre.length = l := by
      unfold stringAt
      rw [List.drop_left]
      simp only [nulTerminated, List.append_assoc, List.cons_append]
      rw [List.takeWhile_append_of_pos]
      · simp
      · intro b hb
        have : b ≠ 0 := fun h => hl.2 (h ▸ hb)
        simpa using this
    have htail := ih (pre ++ l ++ [0]) rest hls'
    simp only [List.length_append, List.length_singleton] at htail
    have hmem : pre ++ (nulTerminated (l :: ls) ++ rest)
        = pre ++ l ++ [0] ++ (nulTerminated ls ++ rest) := by
      simp [nulTerminated]
    simp only [lineStarts, List.map_cons, hhead]
    rw [hmem, htail]

/-- The call `lines(s, args)` on lines, a rest and a terminated end. -/
theorem lines_spec (ls : List (List Byte)) (t r : List Byte)
    (hls : ∀ l ∈ ls, Plain l) (ht : Plain t) (hr : strlen r = 0) :
    lines (unlines ls ++ (t ++ r)) =
      ⟨nulTerminated ls ++ (t ++ r), lineStarts 0 ls, ls.length⟩ := by
  have := linesLoop_spec ls t r [] [] 0 hls ht hr
  simpa [lines] using this

/-- C4: on an argument-file text of `N` newline-terminated lines without NUL
bytes, `lines(s, args)` returns `N`, stores `N` entries, and the entries are,
in file order, strings equal to the lines without their newline. -/
theorem lines_yields_each_terminated_line (ls : List (List Byte)) (junk : List Byte)
    (hls : ∀ l ∈ ls, Plain l) :
    (lines (unlines ls ++ 0 :: junk)).nargs = ls.length ∧
      (lines (unlines ls ++ 0 :: junk)).args.length = ls.length ∧
      (lines (unlines ls ++ 0 :: junk)).args.map
        (stringAt (lines (unlines ls ++ 0 :: junk)).buf) = ls := by
  have h := lines_spec ls [] (0 :: junk) hls (by simp [Plain]) (by simp [strlen])
  simp only [List.nil_append] at h
  have hmap := stringAt_lineStarts ls [] (0 :: junk) hls
  simp only [List.nil_append, List.length_nil] at hmap
  rw [h]
  refine ⟨rfl, ?_, hmap⟩
  have := congrArg List.length hmap
  simpa using this

theorem lines_yields_each_terminated_line_witness :
    (lines [103, 99, 99, 10, 45, 99, 10, 10, 97, 32, 98, 10, 0]).nargs = 4 ∧
      (lines [103, 99, 99, 10, 45, 99, 10, 10, 97, 32, 98, 10, 0]).args.length = 4 ∧
      (lines [103, 99, 99, 10, 45, 99, 10, 10, 97, 32, 98, 10, 0]).args.map
        (stringAt (lines [103, 99, 99, 10, 45, 99, 10, 10, 97, 32, 98, 10, 0]).buf)
        = [[103, 99, 99], [45, 99], [], [97, 32, 98]] :=
  lines_yields_each_terminated_line [[103, 99, 99], [45, 99], [], [97, 32, 98]] [] (by decide)

/-- C5 (the code at the failing input): on the two-line text `"a\nb"`, whose
final line is not terminated, `lines` returns 1 and stores the single entry
`"a"`; the final line `"b"` gets no entry. -/
theorem lines_drops_unterminated_final_line :
    lines [97, 10, 98, 0] = ⟨[97, 0, 98, 0], [0], 1⟩ ∧
      (lines [97, 10, 98, 0]).args.map (stringAt (lines [97, 10, 98, 0]).buf) = [[97]] := by
  decide

theorem unlines_replicate_nil (n : Nat) : unlines (List.replicate n []) = List.replicate n NL := by
  induction n with
  | zero => rfl
  | succ n ih => simp [List.replicate_succ, unlines, ih]

theorem strlen_set_zero (l : List Byte) : strlen (l.set 0 0) = 0 := by
  cases l <;> simp [strlen]

theorem slurp_newlines (LOGSZ sz n : Nat) (hn : n ≤ sz) (hL : n ≤ LOGSZ) :
    ∃ r : List Byte, strlen r = 0 ∧
      slurp (List.replicate LOGSZ 0) sz (some (List.replicate n NL)) = List.replicate n NL ++ r := by
  have htake : (List.replicate n NL).take sz = List.replicate n NL :=
    List.take_of_length_le (by simp [hn])
  have hdrop : (List.replicate LOGSZ (0 : Byte)).drop n = List.replicate (LOGSZ - n) 0 := by
    simp
  simp only [slurp, htake, List.length_replicate, hdrop]
  by_cases h0 : n = 0
  · subst h0
    refine ⟨List.replicate LOGSZ 0, ?_, by simp⟩
    cases LOGSZ <;> simp [List.replicate_succ, strlen]
  · refine ⟨(List.replicate (LOGSZ - n) 0).set 0 0, strlen_set_zero _, ?_⟩
    rw [if_pos h0]
    rw [List.set_append, if_neg (by simp)]
    simp

/-- C8 (the code at the failing input): when the text part of `buf` has room
for `MAXARGS + 1` bytes, an indirection file of `MAXARGS + 1` newlines makes
`lines` store `MAXARGS + 1` entries, one more than the pointer table holds. -/
theorem lines_stores_past_MAXARGS (LOGSZ : Nat)
    (hroom : MAXARGS * PTRSZ + (MAXARGS + 1) ≤ LOGSZ) (hsz : LOGSZ < SIZE_MAX1) :
    (argFileLines LOGSZ (some (List.replicate (MAXARGS + 1) NL))).nargs = MAXARGS + 1 ∧
      (argFileLines LOGSZ (some (List.replicate (MAXARGS + 1) NL))).args.length = MAXARGS + 1 ∧
      ¬ (argFileLines LOGSZ (some (List.replicate (MAXARGS + 1) NL))).nargs ≤ MAXARGS := by
  have hb : MAXARGS + 1 ≤ bufSize LOGSZ := by
    unfold bufSize MAXARGS PTRSZ SIZE_MAX1 at *
    omega
  have hL : MAXARGS + 1 ≤ LOGSZ := by omega
  obtain ⟨r, hr, hslurp⟩ := slurp_newlines LOGSZ (bufSize LOGSZ) (MAXARGS + 1) hb hL
  have hpl : ∀ l ∈ List.replicate (MAXARGS + 1) ([] : List Byte), Plain l := by
    intro l hl
    rw [List.eq_of_mem_replicate hl]
    simp [Plain]
  have h := lines_spec (List.replicate (MAXARGS + 1) []) [] r hpl (by simp [Plain]) hr
  rw [unlines_replicate_nil] at h
  simp only [List.nil_append] at h
  have hlen : ∀ (b : Nat) (ls : List (List Byte)), (lineStarts b ls).length = ls.length := by
    intro b ls
    induction ls generalizing b with
    | nil => rfl
    | cons l ls ih => simp [lineStarts, ih]
  unfold argFileLines
  rw [hslurp, h]
  refine ⟨by simp, by simp [hlen], by simp⟩

theorem lines_stores_past_MAXARGS_witness :
    (MAXARGS * PTRSZ + (MAXARGS + 1) ≤ 4194304 ∧ 4194304 < SIZE_MAX1) ∧
      ((argFileLines 4194304 (some (List.replicate (MAXARGS + 1) NL))).nargs = MAXARGS + 1 ∧
        (argFileLines 4194304 (some (List.replicate (MAXARGS + 1) NL))).args.length
          = MAXARGS + 1 ∧
        ¬ (argFileLines 4194304 (some (List.replicate (MAXARGS + 1) NL))).nargs ≤ MAXARGS) :=
  ⟨by decide, lines_stores_past_MAXARGS 4194304 (by decide) (by decide)⟩

/-! ## The run as a whole -/

theorem dump_count_shmTerm (env : Env) (path p : List Byte) (sz : Nat) :
    (dump env path p sz).count Event.shmTerm = 0 := by
  rw [List.count_eq_zero]
  intro h
  simp only [dump, List.mem_append] at h
  rcases h with ((h | h) | h) | h <;> split at h <;> simp at h

theorem report_count_shmTerm (env : Env) (argv : List (List Byte)) (nargs : Nat) (rc : Int) :
    (report env argv nargs rc).count Event.shmTerm = 0 := by
  unfold report
  split
  · simp
  · simp
  · simp
  · split
    · simp
    · split
      · split
        · exact dump_count_shmTerm _ _ _ _
        · simp
      · exact dump_count_shmTerm _ _ _ _

theorem main_of_shmInit_ok (env : Env) (argv : List (List Byte))
    (hu : ¬ badUsage argv) (hi : env.shmInitErr = 0) :
    main env argv =
      ([Event.shmInit (argv.getD 1 []) env.LOGSZ, Event.putenv (argv.getD 1 []),
          Event.procRun (resolveArgs env argv).1 (resolveArgs env argv).2]
        ++ report env argv (resolveArgs env argv).1 (env.procRc.getD EXIT_FAILURE)
        ++ [Event.shmTerm]
        ++ (if env.shmTermErr ≠ 0 then [Event.errorMsg "freeing shared memory"] else []),
       env.procRc.getD EXIT_FAILURE) := by
  unfold main
  rw [if_neg hu, if_neg (by simp [hi])]

theorem report_raw (env : Env) (argv : List (List Byte)) (nargs : Nat)
    (hmode : argv.getD 2 [] = rawMark) (hp : env.procResult = ProcResult.ERR_PROC_OK) :
    report env argv nargs 0
      = dump env (argv.getD 1 []) (env.shmBuf.drop 4) (header env.shmBuf) := by
  have hcmp : strcmp rawMark rawMark = 0 := by decide
  unfold report
  rw [hmode, hp]
  simp only [ne_eq, not_true_eq_false, if_false, hcmp]

theorem dump_writeSize (env : Env) (path p : List Byte) (sz : Nat) :
    (dump env path p sz).filterMap Event.writeSize
      = (if 0 ≤ outFd env path then [sz] else []) := by
  simp only [dump, List.filterMap_append]
  split_ifs <;> simp [Event.writeSize]

theorem dump_handed (env : Env) (path p : List Byte) (sz : Nat) :
    (dump env path p sz).filterMap Event.handed
      = (if 0 ≤ outFd env path then [p.take sz] else []) := by
  simp only [dump, List.filterMap_append]
  split_ifs <;> simp [Event.handed]

/-- C3: in raw mode after a child that exited with 0, whatever the channel
holds, the size passed to `write` is the length field at offset 0 and the
bytes handed over are the channel bytes from offset 4 up to that length,
unchanged; they are as many as the length field says when the channel holds
that many. Nothing is handed over when the destination cannot be opened. -/
theorem raw_mode_hands_header_length_bytes (env : Env) (argv : List (List Byte))
    (hu : ¬ badUsage argv) (hmode : argv.getD 2 [] = rawMark) (hi : env.shmInitErr = 0)
    (hp : env.procResult = ProcResult.ERR_PROC_OK) (hrc : env.procRc = some 0) :
    (main env argv).1.filterMap Event.writeSize
        = (if 0 ≤ outFd env (argv.getD 1 []) then [header env.shmBuf] else []) ∧
      (main env argv).1.filterMap Event.handed
        = (if 0 ≤ outFd env (argv.getD 1 []) then
            [(env.shmBuf.drop 4).take (header env.shmBuf)] else []) ∧
      (4 + header env.shmBuf ≤ env.shmBuf.length →
        ((env.shmBuf.drop 4).take (header env.shmBuf)).length = header env.shmBuf) := by
  rw [main_of_shmInit_ok env argv hu hi, hrc]
  simp only [Option.getD_some, report_raw env argv _ hmode hp, List.filterMap_append,
    dump_writeSize, dump_handed]
  refine ⟨?_, ?_, ?_⟩
  · split_ifs <;> simp [Event.writeSize]
  · split_ifs <;> simp [Event.handed]
  · intro h
    simp only [List.length_take, List.length_drop]
    omega

theorem raw_mode_hands_header_length_bytes_witness :
    (main rawRun.1 rawRun.2).1.filterMap Event.writeSize = [3] ∧
      (main rawRun.1 rawRun.2).1.filterMap Event.handed = [[97, 10, 98]] ∧
      (4 + header rawRun.1.shmBuf ≤ rawRun.1.shmBuf.length →
        ((rawRun.1.shmBuf.drop 4).take (header rawRun.1.shmBuf)).length
          = header rawRun.1.shmBuf) :=
  raw_mode_hands_header_length_bytes rawRun.1 rawRun.2 (by decide) (by decide) (by decide)
    (by decide) (by decide)

/-- C6: when the channel was created and `procRun` reports completion with a
non-zero child exit code `rc`, `main` returns `rc` and takes no step of `dump`:
nothing is opened, written or closed. -/
theorem main_returns_nonzero_child_code (env : Env) (argv : List (List Byte)) (rc : Int)
    (hu : ¬ badUsage argv) (hi : env.shmInitErr = 0)
    (hp : env.procResult = ProcResult.ERR_PROC_OK) (hrc : env.procRc = some rc)
    (hne : rc ≠ 0) :
    (main env argv).2 = rc ∧ ∀ e ∈ (main env argv).1, e.isDumpStep = false := by
  rw [main_of_shmInit_ok env argv hu hi, hrc]
  refine ⟨rfl, ?_⟩
  have hrep : report env argv (resolveArgs env argv).1 rc
      = [Event.dumpargs (resolveArgs env argv).1, Event.errorMsg "command failed"] := by
    unfold report
    rw [hp]
    simp only [ne_eq, hne, not_false_eq_true, if_true]
  intro e he
  by_cases ht : env.shmTermErr = 0
  · simp [hrep, ht] at he
    rcases he with h | h | h | h | h | h <;> subst h <;> rfl
  · simp [hrep, ht] at he
    rcases he with h | h | h | h | h | h | h <;> subst h <;> rfl

theorem main_returns_nonzero_child_code_witness :
    (main failedRun.1 failedRun.2).2 = 2 ∧
      ∀ e ∈ (main failedRun.1 failedRun.2).1, e.isDumpStep = false :=
  main_returns_nonzero_child_code failedRun.1 failedRun.2 2 (by decide) (by decide) (by decide)
    (by decide) (by decide)

/-- C7: `shmTerm` is called exactly once on every path of `main` on which
`shmInit` was called and succeeded, whatever `procRun`, the child and `dump`
did, and never on a path that ends in the usage `fatal` or the `shmInit`
`fatal`. -/
theorem main_calls_shmTerm_once_after_shmInit (env : Env) (argv : List (List Byte)) :
    (main env argv).1.count Event.shmTerm
      = (if ¬ badUsage argv ∧ env.shmInitErr = 0 then 1 else 0) := by
  by_cases hu : badUsage argv
  · simp [main, hu]
  · by_cases hi : env.shmInitErr = 0
    · rw [if_pos ⟨hu, hi⟩, main_of_shmInit_ok env argv hu hi]
      simp only [List.count_append, report_count_shmTerm]
      split_ifs <;> simp
    · simp [main, hu, hi]

end Fsatrace
